import Mathlib

/-!
Verification of the title-matching engine of the game-data-extractor
repository.  The engine exists in two copies in the source:

* `src/utils/text_similarity.py` (namespace `TS` below): normalizer with
  the director-cut / saga / version-number rules, and a `find_best_match`
  that returns `(None, 0.0)` when the TF-IDF computation raises.
* the `GameTitleMatcher` embedded in `src/extractor/price_scraper.py`
  (namespace `PS` below): a slightly smaller normalizer, a TF-IDF
  matcher that falls back to `_find_best_match_simple` (Jaccard token
  overlap, hard-coded threshold 0.3) when the TF-IDF computation raises,
  and a dispatcher `find_best_match` driven by the `enabled` flag.

Python strings are modelled as `List Char`; the character classes `\w`
and `\s` of Python's `re` module are modelled by their ASCII fragments
(`[A-Za-z0-9_]` and `[ \t\n\r\x0b\x0c]`), which is exact for the ASCII
inputs considered throughout.  Scores are modelled as exact rationals.
The external TF-IDF computation (scikit-learn) is not part of the
repository; it is abstracted as an oracle producing either a list of
cosine similarities or an exception, so that every control-flow property
of the matcher around it can be settled.
-/

/-- ASCII fragment of Python `str.isupper` / the upper-case range used by
`str.lower`. -/
def isUpperA (c : Char) : Bool := decide (65 ≤ c.toNat ∧ c.toNat ≤ 90)

/-- ASCII lower-case letters. -/
def isLowerA (c : Char) : Bool := decide (97 ≤ c.toNat ∧ c.toNat ≤ 122)

/-- ASCII digits. -/
def isDigitA (c : Char) : Bool := decide (48 ≤ c.toNat ∧ c.toNat ≤ 57)

/-- ASCII fragment of the regex class `\w`: letters, digits, underscore. -/
def isWordChar (c : Char) : Bool := isUpperA c || isLowerA c || isDigitA c || decide (c.toNat = 95)

/-- ASCII fragment of the regex class `\s`: space, tab, LF, CR, VT, FF. -/
def isSpaceChar (c : Char) : Bool :=
  decide (c.toNat = 32 ∨ c.toNat = 9 ∨ c.toNat = 10 ∨ c.toNat = 13 ∨ c.toNat = 11 ∨ c.toNat = 12)

/-- Characters that may appear in a normalized title: lower-case ASCII
letters, digits, underscore, or a single space. -/
def goodChar (c : Char) : Bool :=
  isLowerA c || isDigitA c || decide (c.toNat = 95) || decide (c = ' ')

/-- Adjacent characters are never both whitespace (used to state that a
normalized title contains no runs of whitespace). -/
def noTwoSpaces (t : List Char) : Prop :=
  List.Chain' (fun a b => ¬(isSpaceChar a = true ∧ isSpaceChar b = true)) t

/-- The shape of a normalized title: only lower-case alphanumerics,
underscores and spaces, no two adjacent whitespace characters, and no
leading or trailing whitespace. -/
def normForm (t : List Char) : Prop :=
  (∀ c ∈ t, goodChar c = true) ∧ noTwoSpaces t ∧
  (∀ c, t.head? = some c → isSpaceChar c = false) ∧
  (∀ c, t.getLast? = some c → isSpaceChar c = false)

/-- The apostrophe character, used by one vocabulary phrase. -/
def apos : Char := Char.ofNat 39

/-- Model of Python `title.lower()` (ASCII fragment), character-wise. -/
def toLowerStr (s : List Char) : List Char := s.map Char.toLower

/-- Match a literal word list as a prefix; return the remainder on success. -/
def dropLit : List Char → List Char → Option (List Char)
  | [], s => some s
  | _ :: _, [] => none
  | a :: as, c :: cs => if a = c then dropLit as cs else none

/-- The trailing `\b` of the removal regexes: the remainder must not start
with a word character (all alternatives end in a word character). -/
def boundaryAfter : List Char → Bool
  | [] => true
  | c :: _ => !isWordChar c

/-- Regex alternation of literal phrases, tried in pattern order, each
followed by `\b`.  Returns the consumed text and the remainder. -/
def matchAlts : List (List Char) → List Char → Option (List Char × List Char)
  | [], _ => none
  | a :: rest, s =>
    match dropLit a s with
    | some r => if boundaryAfter r then some (a, r) else matchAlts rest s
    | none => matchAlts rest s

/-- The alternative `v\d+\.\d+` of the version-number regex. -/
def matchVerNum (s : List Char) : Option (List Char × List Char) :=
  match s with
  | 'v' :: rest =>
    let d1 := rest.takeWhile isDigitA
    let r1 := rest.dropWhile isDigitA
    match r1 with
    | '.' :: r2 =>
      let d2 := r2.takeWhile isDigitA
      let r3 := r2.dropWhile isDigitA
      if d1 ≠ [] ∧ d2 ≠ [] ∧ boundaryAfter r3 then
        some ('v' :: d1 ++ '.' :: d2, r3)
      else none
    | _ => none
  | _ => none

/-- The alternative `version\s+\d+` of the version-number regex. -/
def matchVerWord (s : List Char) : Option (List Char × List Char) :=
  match dropLit ("version".toList) s with
  | some r =>
    let sp := r.takeWhile isSpaceChar
    let r1 := r.dropWhile isSpaceChar
    let d := r1.takeWhile isDigitA
    let r2 := r1.dropWhile isDigitA
    if sp ≠ [] ∧ d ≠ [] ∧ boundaryAfter r2 then
      some ("version".toList ++ sp ++ d, r2)
    else none
  | none => none

/-- The regex `\b(v\d+\.\d+|version\s+\d+)\b`, alternatives in order. -/
def matchVersion (s : List Char) : Option (List Char × List Char) :=
  match matchVerNum s with
  | some p => some p
  | none => matchVerWord s

/-- The regex `\(\d{4}\)` (a parenthesised four-digit year). -/
def matchYear : List Char → Option (List Char × List Char)
  | '(' :: a :: b :: c :: d :: ')' :: r =>
    if isDigitA a ∧ isDigitA b ∧ isDigitA c ∧ isDigitA d then
      some (['(', a, b, c, d, ')'], r)
    else none
  | _ => none

/-- Whether the last character consumed by a match is a word character
(used as the left-context for the next `\b` test while scanning). -/
def endsWord (t : List Char) : Bool :=
  match t.getLast? with
  | some c => isWordChar c
  | none => false

/-- Left-to-right non-overlapping scan of `re.sub(pat, '', s)`: at each
position, if the previous character permits a leading `\b` (when `needB`),
try the matcher; on a match drop the consumed text and continue after it,
otherwise keep the character and advance one position.  `fuel` bounds the
recursion and is instantiated with the string length. -/
def scanSub (m : List Char → Option (List Char × List Char)) (needB : Bool) :
    Nat → Bool → List Char → List Char
  | 0, _, s => s
  | _ + 1, _, [] => []
  | fuel + 1, prevW, c :: cs =>
    if needB && prevW then
      c :: scanSub m needB fuel (isWordChar c) cs
    else
      match m (c :: cs) with
      | some (t, r) => scanSub m needB fuel (endsWord t) r
      | none => c :: scanSub m needB fuel (isWordChar c) cs

/-- Run a substitution scan over a whole string. -/
def runSub (m : List Char → Option (List Char × List Char)) (needB : Bool)
    (s : List Char) : List Char :=
  scanSub m needB s.length false s

/-- One vocabulary-removal pass: `re.sub(r'\b(w1|w2|...)\b', '', s)`. -/
def subAlts (alts : List (List Char)) (s : List Char) : List Char :=
  runSub (matchAlts alts) true s

/-- The pass `re.sub(r'\b(v\d+\.\d+|version\s+\d+)\b', '', s)`. -/
def subVersion (s : List Char) : List Char := runSub matchVersion true s

/-- The pass `re.sub(r'\(\d{4}\)', '', s)`. -/
def subYear (s : List Char) : List Char := runSub matchYear false s

/-- The pass `re.sub(r'[^\w\s]', ' ', s)`. -/
def punctSub (s : List Char) : List Char :=
  s.map fun c => if isWordChar c || isSpaceChar c then c else ' '

/-- Worker for `collapseWs`; the fuel is instantiated with the string
length, which bounds the recursion depth. -/
def collapseGo : Nat → List Char → List Char
  | 0, s => s
  | _ + 1, [] => []
  | fuel + 1, c :: cs =>
    if isSpaceChar c then ' ' :: collapseGo fuel (cs.dropWhile isSpaceChar)
    else c :: collapseGo fuel cs

/-- The pass `re.sub(r'\s+', ' ', s)`: collapse whitespace runs. -/
def collapseWs (s : List Char) : List Char := collapseGo s.length s

/-- Drop a trailing whitespace run (the right half of Python `strip()`). -/
def dropTrailWs (s : List Char) : List Char :=
  (s.reverse.dropWhile isSpaceChar).reverse

/-- Model of Python `str.strip()`. -/
def stripWs (s : List Char) : List Char :=
  dropTrailWs (s.dropWhile isSpaceChar)

/-- Worker for `splitWs`; the fuel is instantiated with the string length. -/
def splitGo : Nat → List Char → List (List Char)
  | 0, _ => []
  | _ + 1, [] => []
  | fuel + 1, c :: cs =>
    if isSpaceChar c then splitGo fuel cs
    else (c :: cs.takeWhile (fun d => !isSpaceChar d)) ::
      splitGo fuel (cs.dropWhile (fun d => !isSpaceChar d))

/-- Model of Python `str.split()` (split on whitespace runs, no empties). -/
def splitWs (s : List Char) : List (List Char) := splitGo s.length s

/-- Helper: a string literal as a character list. -/
def w (s : String) : List Char := s.toList

namespace TS

/-- First removal vocabulary of `text_similarity.normalize_title`. -/
def vocab1 : List (List Char) :=
  [w "goty", w "game of the year", w "ultimate", w "deluxe", w "premium",
   w "collector", w "special", w "limited", w "director" ++ [apos] ++ w "s cut"]

/-- Second removal vocabulary (shared wording with the price-scraper copy). -/
def vocab2 : List (List Char) :=
  [w "edition", w "version", w "remaster", w "remastered", w "hd", w "4k",
   w "enhanced", w "definitive"]

/-- Third removal vocabulary of `text_similarity.normalize_title`. -/
def vocab3 : List (List Char) :=
  [w "pack", w "bundle", w "collection", w "anthology", w "trilogy", w "saga"]

/-- Platform token vocabulary. -/
def platforms : List (List Char) :=
  [w "pc", w "ps4", w "ps5", w "xbox", w "nintendo", w "switch", w "steam"]

/-- `GameTitleMatcher.normalize_title` of `src/utils/text_similarity.py`:
lower-case, strip edition/version/grouping vocabularies, version numbers,
platform tokens, a parenthesised year, punctuation, and whitespace runs. -/
def normalize_title (title : List Char) : List Char :=
  if title.isEmpty then []
  else
    stripWs (collapseWs (punctSub (subYear (subAlts platforms (subVersion
      (subAlts vocab3 (subAlts vocab2 (subAlts vocab1 (toLowerStr title)))))))))

end TS

namespace PS

/-- First removal vocabulary of the price-scraper copy (no director-cut
entry). -/
def vocab1 : List (List Char) :=
  [w "goty", w "game of the year", w "ultimate", w "deluxe", w "premium",
   w "collector", w "special", w "limited"]

/-- Third removal vocabulary of the price-scraper copy (no saga entry). -/
def vocab3 : List (List Char) :=
  [w "pack", w "bundle", w "collection", w "anthology", w "trilogy"]

/-- `GameTitleMatcher.normalize_title` of the copy embedded in
`src/extractor/price_scraper.py`: as the `TS` version but without the
version-number pass. -/
def normalize_title (title : List Char) : List Char :=
  if title.isEmpty then []
  else
    stripWs (collapseWs (punctSub (subYear (subAlts TS.platforms
      (subAlts vocab3 (subAlts TS.vocab2 (subAlts vocab1 (toLowerStr title))))))))

end PS

/-- Python `enumerate`, starting at `i`. -/
def enumFrom (i : Nat) : List α → List (Nat × α)
  | [] => []
  | a :: as => (i, a) :: enumFrom (i + 1) as

/-- `np.argmax` over a list of scores together with the score it picks:
first index attaining the maximum (updates only on strictly larger
values), or `none` on the empty list (where `np.argmax` raises). -/
def argmaxGo : List ℚ → ℚ → Nat → Nat → Nat × ℚ
  | [], bv, bi, _ => (bi, bv)
  | x :: xs, bv, bi, i =>
    if bv < x then argmaxGo xs x i (i + 1) else argmaxGo xs bv bi (i + 1)

/-- See `argmaxGo`. -/
def argmax? : List ℚ → Option (Nat × ℚ)
  | [] => none
  | x :: xs => some (argmaxGo xs x 0 1)

/-- Abstraction of the scikit-learn TF-IDF pipeline
(`fit_transform` followed by `cosine_similarity(...).flatten()`): from the
corpus (normalized search title followed by the surviving normalized
candidates) it produces either one similarity per candidate or raises. -/
def Oracle : Type := List (List Char) → Except Unit (List ℚ)

/-- An oracle that always raises (e.g. an empty effective vocabulary). -/
def errOracle : Oracle := fun _ => .error ()

/-- An oracle returning a fixed list of similarities. -/
def constOracle (l : List ℚ) : Oracle := fun _ => .ok l

/-- The `valid_candidates` construction shared by both matcher copies:
normalized candidates paired with their original `enumerate` index, those
whose stripped normalized form is empty filtered out. -/
def validGen (f : List Char → List Char) (cands : List (List Char)) :
    List (Nat × List Char) :=
  (enumFrom 0 (cands.map f)).filter fun p => !(stripWs p.2).isEmpty

namespace TS

/-- The `valid_candidates` list of `find_best_match`. -/
def valid (cands : List (List Char)) : List (Nat × List Char) :=
  validGen normalize_title cands

/-- The `all_texts` corpus handed to the vectorizer. -/
def allTexts (search : List Char) (cands : List (List Char)) : List (List Char) :=
  normalize_title search :: (valid cands).map Prod.snd

/-- `GameTitleMatcher.find_best_match` of `src/utils/text_similarity.py`:
TF-IDF only; on any exception inside the `try` block (vectorizer failure,
`np.argmax` on an empty array, an out-of-range index) it returns
`(None, 0.0)`. -/
def find_best_match (oracle : Oracle) (threshold : ℚ) (search : List Char)
    (cands : List (List Char)) : Option Nat × ℚ :=
  if search.isEmpty || cands.isEmpty then (none, 0)
  else if (valid cands).isEmpty then (none, 0)
  else
    match oracle (allTexts search cands) with
    | .error _ => (none, 0)
    | .ok sims =>
      match argmax? sims with
      | none => (none, 0)
      | some (bi, bs) =>
        match (valid cands).get? bi with
        | none => (none, 0)
        | some p => if threshold ≤ bs then (some p.1, bs) else (none, bs)

end TS

namespace PS

/-- As `TS.valid`, for the price-scraper normalizer. -/
def valid (cands : List (List Char)) : List (Nat × List Char) :=
  validGen normalize_title cands

/-- As `TS.allTexts`, for the price-scraper normalizer. -/
def allTexts (search : List Char) (cands : List (List Char)) : List (List Char) :=
  normalize_title search :: (valid cands).map Prod.snd

/-- The token set `set(self.normalize_title(t).lower().split())`. -/
def words (t : List Char) : Finset (List Char) :=
  (splitWs (toLowerStr (normalize_title t))).toFinset

/-- The loop of `_find_best_match_simple` over `enumerate(candidate_titles)`:
skip candidates when either token set is empty, otherwise score by
Jaccard similarity and keep the first strictly better candidate. -/
def simpleGo (sw : Finset (List Char)) :
    List (List Char) → Nat → Option Nat → ℚ → Option Nat × ℚ
  | [], _, bi, bs => (bi, bs)
  | cand :: rest, i, bi, bs =>
    let cw := words cand
    if sw.Nonempty ∧ cw.Nonempty then
      let inter := (sw ∩ cw).card
      let un := (sw ∪ cw).card
      let score : ℚ := if 0 < un then (inter : ℚ) / (un : ℚ) else 0
      if bs < score then simpleGo sw rest (i + 1) (some i) score
      else simpleGo sw rest (i + 1) bi bs
    else simpleGo sw rest (i + 1) bi bs

/-- `GameTitleMatcher._find_best_match_simple` of the price-scraper copy:
Jaccard token overlap with the hard-coded acceptance threshold `0.3`. -/
def find_best_match_simple (search : List Char) (cands : List (List Char)) :
    Option Nat × ℚ :=
  let r := simpleGo (words search) cands 0 none 0
  if (3 : ℚ) / 10 ≤ r.2 then r else (none, r.2)

/-- `GameTitleMatcher._find_best_match_tfidf` of the price-scraper copy:
as the `TS` matcher, but every exception inside the `try` block falls
back to `_find_best_match_simple` on the original arguments. -/
def find_best_match_tfidf (oracle : Oracle) (threshold : ℚ) (search : List Char)
    (cands : List (List Char)) : Option Nat × ℚ :=
  if (valid cands).isEmpty then (none, 0)
  else
    match oracle (allTexts search cands) with
    | .error _ => find_best_match_simple search cands
    | .ok sims =>
      match argmax? sims with
      | none => find_best_match_simple search cands
      | some (bi, bs) =>
        match (valid cands).get? bi with
        | none => find_best_match_simple search cands
        | some p => if threshold ≤ bs then (some p.1, bs) else (none, bs)

/-- `GameTitleMatcher.find_best_match` of the price-scraper copy: empty
inputs short-circuit, then dispatch on the `enabled` capability flag. -/
def find_best_match (enabled : Bool) (oracle : Oracle) (threshold : ℚ)
    (search : List Char) (cands : List (List Char)) : Option Nat × ℚ :=
  if search.isEmpty || cands.isEmpty then (none, 0)
  else if enabled then find_best_match_tfidf oracle threshold search cands
  else find_best_match_simple search cands

/-- The Jaccard score a candidate contributes in `_find_best_match_simple`
(`0` for the skipped candidates, which never update the running best). -/
def candScore (sw : Finset (List Char)) (cand : List Char) : ℚ :=
  let cw := words cand
  if sw.Nonempty ∧ cw.Nonempty then
    if 0 < (sw ∪ cw).card then (((sw ∩ cw).card : ℚ) / ((sw ∪ cw).card : ℚ)) else 0
  else 0

/-- The best score the simple strategy computes over a candidate list. -/
def bestSimpleScore (search : List Char) (cands : List (List Char)) : ℚ :=
  cands.foldl (fun a c => max a (candScore (words search) c)) 0

end PS

/-! ### Character-level lemmas -/

theorem toNat_ofNat_of_valid {n : Nat} (h1 : 97 ≤ n) (h2 : n ≤ 122) :
    (Char.ofNat n).toNat = n := by
  interval_cases n <;> decide

theorem toLower_toNat (c : Char) :
    (Char.toLower c).toNat =
      if 65 ≤ c.toNat ∧ c.toNat ≤ 90 then c.toNat + 32 else c.toNat := by
  rw [Char.toLower]
  by_cases h : 65 ≤ c.toNat ∧ c.toNat ≤ 90
  · rw [if_pos h, if_pos ⟨h.1, h.2⟩]
    exact toNat_ofNat_of_valid (by omega) (by omega)
  · rw [if_neg h, if_neg h]

theorem isUpperA_toLower (c : Char) : isUpperA (Char.toLower c) = false := by
  simp only [isUpperA, decide_eq_false_iff_not]
  rw [toLower_toNat]
  split <;> omega

theorem toLower_eq_self {c : Char} (h : isUpperA c = false) : Char.toLower c = c := by
  rw [Char.toLower, if_neg]
  simp only [isUpperA, decide_eq_false_iff_not] at h
  exact h

theorem word_not_space {c : Char} (h : isWordChar c = true) : isSpaceChar c = false := by
  simp only [isWordChar, isUpperA, isLowerA, isDigitA, Bool.or_eq_true,
    decide_eq_true_eq] at h
  simp only [isSpaceChar, decide_eq_false_iff_not]
  omega

theorem good_not_upper {c : Char} (h : goodChar c = true) : isUpperA c = false := by
  simp only [goodChar, isLowerA, isDigitA, Bool.or_eq_true, decide_eq_true_eq] at h
  simp only [isUpperA, decide_eq_false_iff_not]
  rcases h with ((h | h) | h) | h
  · omega
  · omega
  · omega
  · subst h; decide

theorem good_word_or_space {c : Char} (h : goodChar c = true) :
    isWordChar c = true ∨ c = ' ' := by
  simp only [goodChar, Bool.or_eq_true, decide_eq_true_eq] at h
  rcases h with ((h | h) | h) | h
  · exact Or.inl (by simp only [isWordChar, Bool.or_eq_true]; tauto)
  · exact Or.inl (by simp only [isWordChar, Bool.or_eq_true]; tauto)
  · exact Or.inl (by
      simp only [isWordChar, Bool.or_eq_true, decide_eq_true_eq]; tauto)
  · exact Or.inr h

theorem word_notUpper_good {c : Char} (hw : isWordChar c = true)
    (hu : isUpperA c = false) : goodChar c = true := by
  simp only [isWordChar, Bool.or_eq_true] at hw
  simp only [goodChar, Bool.or_eq_true]
  rcases hw with ((h | h) | h) | h
  · rw [h] at hu; cases hu
  · tauto
  · tauto
  · tauto

theorem space_good_eq_space {c : Char} (hs : isSpaceChar c = true)
    (hg : goodChar c = true) : c = ' ' := by
  simp only [isSpaceChar, decide_eq_true_eq] at hs
  simp only [goodChar, isLowerA, isDigitA, Bool.or_eq_true, decide_eq_true_eq] at hg
  rcases hg with ((h | h) | h) | h
  · omega
  · omega
  · omega
  · exact h

/-! ### Substitution passes only delete characters -/

theorem dropLit_suffix : ∀ (a s r : List Char), dropLit a s = some r → r <:+ s
  | [], s, r, h => by
    simp only [dropLit, Option.some.injEq] at h
    exact h ▸ List.suffix_refl s
  | _ :: _, [], _, h => by simp [dropLit] at h
  | a :: as, c :: cs, r, h => by
    simp only [dropLit] at h
    split at h
    · exact (dropLit_suffix as cs r h).trans (List.suffix_cons c cs)
    · cases h

theorem matchAlts_suffix :
    ∀ (alts : List (List Char)) (s t r : List Char),
      matchAlts alts s = some (t, r) → r <:+ s
  | [], s, t, r, h => by simp [matchAlts] at h
  | a :: rest, s, t, r, h => by
    simp only [matchAlts] at h
    split at h
    · split at h
      · simp only [Option.some.injEq, Prod.mk.injEq] at h
        exact h.2 ▸ dropLit_suffix a s _ (by assumption)
      · exact matchAlts_suffix rest s t r h
    · exact matchAlts_suffix rest s t r h

theorem matchVerNum_suffix {s t r : List Char} (h : matchVerNum s = some (t, r)) :
    r <:+ s := by
  unfold matchVerNum at h
  split at h
  · next rest =>
    dsimp only at h
    split at h
    · next r2 heq =>
      split at h
      · simp only [Option.some.injEq, Prod.mk.injEq] at h
        have h1 : r <:+ r2 := h.2 ▸ List.dropWhile_suffix _
        have h2 : r2 <:+ rest := by
          have : '.' :: r2 <:+ rest := heq ▸ List.dropWhile_suffix _
          exact (List.suffix_cons '.' r2).trans this
        exact (h1.trans h2).trans (List.suffix_cons _ _)
      · cases h
    · cases h
  · cases h

theorem matchVerWord_suffix {s t r : List Char} (h : matchVerWord s = some (t, r)) :
    r <:+ s := by
  unfold matchVerWord at h
  split at h
  · next u heq =>
    dsimp only at h
    split at h
    · simp only [Option.some.injEq, Prod.mk.injEq] at h
      have h1 : r <:+ u.dropWhile isSpaceChar := h.2 ▸ List.dropWhile_suffix _
      have h2 : u.dropWhile isSpaceChar <:+ u := List.dropWhile_suffix _
      exact (h1.trans h2).trans (dropLit_suffix _ s u heq)
    · cases h
  · cases h

theorem matchVersion_suffix {s t r : List Char} (h : matchVersion s = some (t, r)) :
    r <:+ s := by
  unfold matchVersion at h
  split at h
  · next p heq =>
    cases h
    exact matchVerNum_suffix heq
  · exact matchVerWord_suffix h

theorem matchYear_suffix {s t r : List Char} (h : matchYear s = some (t, r)) :
    r <:+ s := by
  unfold matchYear at h
  split at h
  · split at h
    · simp only [Option.some.injEq, Prod.mk.injEq] at h
      obtain ⟨h1, h2⟩ := h
      subst h2
      exact ⟨['(', _, _, _, _, ')'], rfl⟩
    · cases h
  · cases h

theorem scanSub_subset
    {m : List Char → Option (List Char × List Char)}
    (hm : ∀ s t r, m s = some (t, r) → r <:+ s) (needB : Bool) :
    ∀ (fuel : Nat) (pw : Bool) (s : List Char) (c : Char),
      c ∈ scanSub m needB fuel pw s → c ∈ s := by
  intro fuel
  induction fuel with
  | zero => intro pw s c h; exact h
  | succ n ih =>
    intro pw s c h
    match s with
    | [] => rw [scanSub] at h; cases h
    | a :: as =>
      rw [scanSub] at h
      split at h
      · rcases List.mem_cons.1 h with h | h
        · exact h ▸ List.mem_cons_self a as
        · exact List.mem_cons_of_mem a (ih _ as c h)
      · split at h
        · next t r heq =>
          exact (hm _ _ _ heq).subset (ih _ r c h)
        · rcases List.mem_cons.1 h with h | h
          · exact h ▸ List.mem_cons_self a as
          · exact List.mem_cons_of_mem a (ih _ as c h)

theorem subAlts_subset {alts : List (List Char)} {s : List Char} {c : Char}
    (h : c ∈ subAlts alts s) : c ∈ s :=
  scanSub_subset (fun s t r hh => matchAlts_suffix alts s t r hh) true _ _ _ _ h

theorem subVersion_subset {s : List Char} {c : Char} (h : c ∈ subVersion s) : c ∈ s :=
  scanSub_subset (fun _ _ _ hh => matchVersion_suffix hh) true _ _ _ _ h

theorem subYear_subset {s : List Char} {c : Char} (h : c ∈ subYear s) : c ∈ s :=
  scanSub_subset (fun _ _ _ hh => matchYear_suffix hh) false _ _ _ _ h

/-! ### Unfolding equations for the fuel-based whitespace functions -/

theorem collapseGo_congr :
    ∀ (f1 : Nat) (f2 : Nat) (s : List Char), s.length ≤ f1 → s.length ≤ f2 →
      collapseGo f1 s = collapseGo f2 s := by
  intro f1
  induction f1 with
  | zero =>
    intro f2 s h1 _
    have hs : s = [] := List.eq_nil_of_length_eq_zero (Nat.le_zero.1 h1)
    subst hs
    cases f2 <;> rfl
  | succ n ih =>
    intro f2 s h1 h2
    match s with
    | [] => cases f2 <;> rfl
    | c :: cs =>
      match f2 with
      | 0 => simp at h2
      | m + 1 =>
        simp only [List.length_cons] at h1 h2
        rw [collapseGo, collapseGo]
        by_cases hc : isSpaceChar c
        · rw [if_pos hc, if_pos hc]
          have hl := (List.dropWhile_sublist (l := cs) isSpaceChar).length_le
          exact congrArg _ (ih m _ (by omega) (by omega))
        · rw [if_neg hc, if_neg hc]
          exact congrArg _ (ih m cs (by omega) (by omega))

theorem collapseWs_nil : collapseWs [] = [] := rfl

theorem collapseWs_cons (c : Char) (cs : List Char) :
    collapseWs (c :: cs) =
      if isSpaceChar c then ' ' :: collapseWs (cs.dropWhile isSpaceChar)
      else c :: collapseWs cs := by
  show collapseGo (c :: cs).length (c :: cs) = _
  simp only [List.length_cons]
  rw [collapseGo]
  by_cases hc : isSpaceChar c
  · rw [if_pos hc, if_pos hc]
    have hl := (List.dropWhile_sublist (l := cs) isSpaceChar).length_le
    exact congrArg _ (collapseGo_congr _ _ _ (by omega) (le_refl _))
  · rw [if_neg hc, if_neg hc]
    rfl

theorem collapseWs_ind (P : List Char → Prop) (h0 : P [])
    (hsp : ∀ c cs, isSpaceChar c = true → P (cs.dropWhile isSpaceChar) → P (c :: cs))
    (hns : ∀ c cs, isSpaceChar c = false → P cs → P (c :: cs)) :
    ∀ s, P s := by
  have key : ∀ (n : Nat) (s : List Char), s.length ≤ n → P s := by
    intro n
    induction n with
    | zero =>
      intro s hs
      have hn : s = [] := List.eq_nil_of_length_eq_zero (Nat.le_zero.1 hs)
      exact hn ▸ h0
    | succ n ih =>
      intro s hs
      match s with
      | [] => exact h0
      | c :: cs =>
        simp only [List.length_cons] at hs
        by_cases hc : isSpaceChar c
        · have hl := (List.dropWhile_sublist (l := cs) isSpaceChar).length_le
          exact hsp c cs hc (ih _ (by omega))
        · exact hns c cs (by simpa using hc) (ih cs (by omega))
  intro s
  exact key s.length s (le_refl _)

theorem splitGo_congr :
    ∀ (f1 : Nat) (f2 : Nat) (s : List Char), s.length ≤ f1 → s.length ≤ f2 →
      splitGo f1 s = splitGo f2 s := by
  intro f1
  induction f1 with
  | zero =>
    intro f2 s h1 _
    have hs : s = [] := List.eq_nil_of_length_eq_zero (Nat.le_zero.1 h1)
    subst hs
    cases f2 <;> rfl
  | succ n ih =>
    intro f2 s h1 h2
    match s with
    | [] => cases f2 <;> rfl
    | c :: cs =>
      match f2 with
      | 0 => simp at h2
      | m + 1 =>
        simp only [List.length_cons] at h1 h2
        rw [splitGo, splitGo]
        by_cases hc : isSpaceChar c
        · rw [if_pos hc, if_pos hc]
          exact ih m cs (by omega) (by omega)
        · rw [if_neg hc, if_neg hc]
          have hl := (List.dropWhile_sublist (l := cs)
            (fun d => !isSpaceChar d)).length_le
          exact congrArg _ (ih m _ (by omega) (by omega))

theorem splitWs_nil : splitWs [] = [] := rfl

theorem splitWs_cons (c : Char) (cs : List Char) :
    splitWs (c :: cs) =
      if isSpaceChar c then splitWs cs
      else (c :: cs.takeWhile (fun d => !isSpaceChar d)) ::
        splitWs (cs.dropWhile (fun d => !isSpaceChar d)) := by
  show splitGo (c :: cs).length (c :: cs) = _
  simp only [List.length_cons]
  rw [splitGo]
  by_cases hc : isSpaceChar c
  · rw [if_pos hc, if_pos hc]
    exact splitGo_congr _ _ cs (by omega) (le_refl _)
  · rw [if_neg hc, if_neg hc]
    have hl := (List.dropWhile_sublist (l := cs) (fun d => !isSpaceChar d)).length_le
    exact congrArg _ (splitGo_congr _ _ _ (by omega) (le_refl _))

theorem splitWs_ind (P : List Char → Prop) (h0 : P [])
    (hsp : ∀ c cs, isSpaceChar c = true → P cs → P (c :: cs))
    (hns : ∀ c cs, isSpaceChar c = false →
      P (cs.dropWhile (fun d => !isSpaceChar d)) → P (c :: cs)) :
    ∀ s, P s := by
  have key : ∀ (n : Nat) (s : List Char), s.length ≤ n → P s := by
    intro n
    induction n with
    | zero =>
      intro s hs
      have hn : s = [] := List.eq_nil_of_length_eq_zero (Nat.le_zero.1 hs)
      exact hn ▸ h0
    | succ n ih =>
      intro s hs
      match s with
      | [] => exact h0
      | c :: cs =>
        simp only [List.length_cons] at hs
        by_cases hc : isSpaceChar c
        · exact hsp c cs hc (ih cs (by omega))
        · have hl := (List.dropWhile_sublist (l := cs)
            (fun d => !isSpaceChar d)).length_le
          exact hns c cs (by simpa using hc) (ih _ (by omega))
  intro s
  exact key s.length s (le_refl _)

/-! ### Punctuation, whitespace-collapsing and strip lemmas -/

theorem mem_punctSub {s : List Char} {c : Char} (h : c ∈ punctSub s) :
    c = ' ' ∨ ((isWordChar c || isSpaceChar c) = true ∧ c ∈ s) := by
  obtain ⟨d, hd, hc⟩ := List.mem_map.1 h
  by_cases hw : (isWordChar d || isSpaceChar d) = true
  · rw [if_pos hw] at hc
    exact Or.inr ⟨hc ▸ hw, hc ▸ hd⟩
  · rw [if_neg hw] at hc
    exact Or.inl hc.symm

theorem head?_collapseWs (s : List Char) :
    (collapseWs s).head? = s.head?.map fun c => if isSpaceChar c then ' ' else c := by
  match s with
  | [] => rfl
  | c :: cs =>
    rw [collapseWs_cons]
    split <;> next h => simp [h]

theorem mem_collapseWs {c : Char} :
    ∀ {s : List Char}, c ∈ collapseWs s → c = ' ' ∨ (c ∈ s ∧ isSpaceChar c = false) := by
  intro s
  refine collapseWs_ind
    (fun s => c ∈ collapseWs s → c = ' ' ∨ (c ∈ s ∧ isSpaceChar c = false))
    ?_ ?_ ?_ s
  · intro h
    rw [collapseWs_nil] at h
    cases h
  · intro a cs ha ih h
    rw [collapseWs_cons, if_pos ha] at h
    rcases List.mem_cons.1 h with h | h
    · exact Or.inl h
    · rcases ih h with h | ⟨h1, h2⟩
      · exact Or.inl h
      · exact Or.inr ⟨List.mem_cons_of_mem a ((List.dropWhile_sublist _).subset h1), h2⟩
  · intro a cs ha ih h
    rw [collapseWs_cons, if_neg (by simp [ha])] at h
    rcases List.mem_cons.1 h with h | h
    · subst h
      exact Or.inr ⟨List.mem_cons_self _ _, ha⟩
    · rcases ih h with h | ⟨h1, h2⟩
      · exact Or.inl h
      · exact Or.inr ⟨List.mem_cons_of_mem a h1, h2⟩

theorem head_dropWhile_false {p : Char → Bool} :
    ∀ {s : List Char} {c : Char}, (s.dropWhile p).head? = some c → p c = false := by
  intro s
  induction s with
  | nil => intro c h; simp [List.dropWhile] at h
  | cons a as ih =>
    intro c h
    by_cases hp : p a
    · rw [List.dropWhile_cons_of_pos hp] at h
      exact ih h
    · rw [List.dropWhile_cons_of_neg hp] at h
      simp only [List.head?_cons, Option.some.injEq] at h
      exact h ▸ Bool.of_not_eq_true hp

theorem chain'_collapseWs (s : List Char) : noTwoSpaces (collapseWs s) := by
  unfold noTwoSpaces
  refine collapseWs_ind
    (fun s => List.Chain'
      (fun a b => ¬(isSpaceChar a = true ∧ isSpaceChar b = true)) (collapseWs s))
    ?_ ?_ ?_ s
  · show List.Chain' _ (collapseWs [])
    rw [collapseWs_nil]
    exact List.chain'_nil
  · intro a cs ha ih
    rw [collapseWs_cons, if_pos ha]
    refine List.chain'_cons'.2 ⟨?_, ih⟩
    intro y hy
    rw [head?_collapseWs] at hy
    match hh : (cs.dropWhile isSpaceChar).head? with
    | none => rw [hh] at hy; cases hy
    | some d =>
      rw [hh] at hy
      have hd : isSpaceChar d = false := head_dropWhile_false hh
      simp only [Option.map_some', Option.mem_def, Option.some.injEq, hd,
        Bool.false_eq_true, if_false] at hy
      rintro ⟨-, h2⟩
      rw [← hy, hd] at h2
      cases h2
  · intro a cs ha ih
    rw [collapseWs_cons, if_neg (by simp [ha])]
    refine List.chain'_cons'.2 ⟨?_, ih⟩
    intro y _
    rintro ⟨h1, -⟩
    rw [ha] at h1
    cases h1

theorem dropTrailWs_isPre (s : List Char) : dropTrailWs s <+: s := by
  have h : (s.reverse.dropWhile isSpaceChar) <:+ s.reverse := List.dropWhile_suffix _
  have h2 : ((s.reverse.dropWhile isSpaceChar).reverse).reverse <:+ s.reverse := by
    simpa using h
  exact List.reverse_suffix.1 h2

theorem stripWs_sublist (s : List Char) : (stripWs s).Sublist s :=
  ((dropTrailWs_isPre _).sublist).trans (List.dropWhile_sublist _)

theorem prefix_head?_eq {α : Type} {x y : List α} (h : x <+: y) {c : α}
    (hc : x.head? = some c) : y.head? = some c := by
  obtain ⟨t, rfl⟩ := h
  cases x with
  | nil => cases hc
  | cons a as => simpa using hc

theorem head?_stripWs {s : List Char} {c : Char} (h : (stripWs s).head? = some c) :
    isSpaceChar c = false := by
  unfold stripWs at h
  exact head_dropWhile_false (prefix_head?_eq (dropTrailWs_isPre _) h)

theorem getLast?_stripWs {s : List Char} {c : Char}
    (h : (stripWs s).getLast? = some c) : isSpaceChar c = false := by
  unfold stripWs dropTrailWs at h
  rw [List.getLast?_reverse] at h
  exact head_dropWhile_false h

theorem chain'_stripWs {s : List Char} (h : noTwoSpaces s) : noTwoSpaces (stripWs s) := by
  unfold noTwoSpaces at h ⊢
  refine h.infix ?_
  exact ((dropTrailWs_isPre _).isInfix).trans (List.dropWhile_suffix _).isInfix

theorem stripWs_eq_nil_iff {s : List Char} :
    stripWs s = [] ↔ ∀ c ∈ s, isSpaceChar c = true := by
  unfold stripWs dropTrailWs
  constructor
  · intro h c hc
    rw [List.reverse_eq_nil_iff, List.dropWhile_eq_nil_iff] at h
    have hall : ∀ x ∈ s.dropWhile isSpaceChar, isSpaceChar x = true := by
      intro x hx
      exact h x (List.mem_reverse.2 hx)
    have hs := List.takeWhile_append_dropWhile (p := isSpaceChar) (l := s)
    rw [← hs] at hc
    rcases List.mem_append.1 hc with hc | hc
    · exact List.mem_takeWhile_imp hc
    · exact hall c hc
  · intro h
    have hd : s.dropWhile isSpaceChar = [] :=
      List.dropWhile_eq_nil_iff.2 fun x hx => h x hx
    rw [hd]
    rfl

theorem stripWs_eq_self {s : List Char}
    (h1 : ∀ c, s.head? = some c → isSpaceChar c = false)
    (h2 : ∀ c, s.getLast? = some c → isSpaceChar c = false) :
    stripWs s = s := by
  unfold stripWs dropTrailWs
  have hd : s.dropWhile isSpaceChar = s := by
    match s with
    | [] => rfl
    | a :: as => exact List.dropWhile_cons_of_neg (by simp [h1 a rfl])
  rw [hd]
  have hr : s.reverse.dropWhile isSpaceChar = s.reverse := by
    match hh : s.reverse with
    | [] => rfl
    | a :: as =>
      apply List.dropWhile_cons_of_neg
      have hl : s.getLast? = some a := by
        rw [List.getLast?_eq_head?_reverse, hh]
        rfl
      simp [h2 a hl]
  rw [hr, List.reverse_reverse]

theorem collapseWs_eq_self :
    ∀ {s : List Char}, (∀ c ∈ s, goodChar c = true) → noTwoSpaces s →
      collapseWs s = s := by
  intro s
  refine collapseWs_ind
    (fun s => (∀ c ∈ s, goodChar c = true) → noTwoSpaces s → collapseWs s = s)
    ?_ ?_ ?_ s
  · intro _ _
    rw [collapseWs_nil]
  · intro a cs ha ih hg hc
    rw [collapseWs_cons, if_pos ha]
    have ha' : a = ' ' := space_good_eq_space ha (hg a (List.mem_cons_self a cs))
    have hcs : cs.dropWhile isSpaceChar = cs := by
      match cs with
      | [] => rfl
      | b :: bs =>
        apply List.dropWhile_cons_of_neg
        intro hb
        exact (List.chain'_cons'.1 hc).1 b rfl ⟨ha, hb⟩
    rw [hcs] at ih ⊢
    rw [ih (fun c h => hg c (List.mem_cons_of_mem a h)) (List.chain'_cons'.1 hc).2,
      ha']
  · intro a cs ha ih hg hc
    rw [collapseWs_cons, if_neg (by simp [ha])]
    congr 1
    exact ih (fun c h => hg c (List.mem_cons_of_mem a h)) (List.chain'_cons'.1 hc).2

theorem punctSub_eq_self :
    ∀ {s : List Char}, (∀ c ∈ s, goodChar c = true) → punctSub s = s := by
  intro s
  induction s with
  | nil => intro _; rfl
  | cons a as ih =>
    intro hg
    show (if (isWordChar a || isSpaceChar a) = true then a else ' ') :: punctSub as
      = a :: as
    rw [ih fun c h => hg c (List.mem_cons_of_mem a h)]
    congr 1
    rcases good_word_or_space (hg a (List.mem_cons_self a as)) with h | h
    · rw [if_pos (by simp [h])]
    · subst h
      rw [if_pos (by decide)]

theorem toLowerStr_eq_self :
    ∀ {s : List Char}, (∀ c ∈ s, isUpperA c = false) → toLowerStr s = s := by
  intro s
  induction s with
  | nil => intro _; rfl
  | cons a as ih =>
    intro hg
    show Char.toLower a :: toLowerStr as = a :: as
    rw [ih fun c h => hg c (List.mem_cons_of_mem a h),
      toLower_eq_self (hg a (List.mem_cons_self a as))]

theorem splitWs_eq_nil_iff :
    ∀ {s : List Char}, splitWs s = [] ↔ ∀ c ∈ s, isSpaceChar c = true := by
  intro s
  refine splitWs_ind
    (fun s => splitWs s = [] ↔ ∀ c ∈ s, isSpaceChar c = true) ?_ ?_ ?_ s
  · show splitWs [] = [] ↔ _
    rw [splitWs_nil]
    simp
  · intro c cs hc ih
    rw [splitWs_cons, if_pos hc, ih]
    constructor
    · intro h d hd
      rcases List.mem_cons.1 hd with hd | hd
      · exact hd ▸ hc
      · exact h d hd
    · intro h d hd
      exact h d (List.mem_cons_of_mem c hd)
  · intro c cs hc ih
    rw [splitWs_cons, if_neg (by simp [hc])]
    constructor
    · intro h
      cases h
    · intro h
      rw [h c (List.mem_cons_self c cs)] at hc
      cases hc

/-! ### The shape of normalized titles -/

theorem nf_core {u : List Char} (hu : ∀ c ∈ u, isUpperA c = false) :
    normForm (stripWs (collapseWs (punctSub u))) := by
  refine ⟨?_, chain'_stripWs (chain'_collapseWs _), ?_, ?_⟩
  · intro c hc
    have hc1 := (stripWs_sublist _).subset hc
    rcases mem_collapseWs hc1 with h | ⟨h1, h2⟩
    · subst h
      decide
    · rcases mem_punctSub h1 with h | ⟨h3, h4⟩
      · rw [h] at h2
        cases h2
      · rw [Bool.or_eq_true] at h3
        rcases h3 with h3 | h3
        · exact word_notUpper_good h3 (hu c h4)
        · rw [h3] at h2
          cases h2
  · intro c hc
    exact head?_stripWs hc
  · intro c hc
    exact getLast?_stripWs hc

theorem normForm_nil : normForm [] := by
  refine ⟨?_, ?_, ?_, ?_⟩
  · intro c hc; cases hc
  · exact List.chain'_nil
  · intro c hc; cases hc
  · intro c hc; cases hc

theorem mem_toLowerStr_not_upper {s : List Char} {c : Char}
    (h : c ∈ toLowerStr s) : isUpperA c = false := by
  obtain ⟨d, _, hc⟩ := List.mem_map.1 h
  exact hc ▸ isUpperA_toLower d

theorem TS_normalize_normForm (s : List Char) : normForm (TS.normalize_title s) := by
  unfold TS.normalize_title
  split
  · exact normForm_nil
  · refine nf_core ?_
    intro c hc
    exact mem_toLowerStr_not_upper
      (subAlts_subset (subAlts_subset (subAlts_subset (subVersion_subset
        (subAlts_subset (subYear_subset hc))))))

theorem PS_normalize_normForm (s : List Char) : normForm (PS.normalize_title s) := by
  unfold PS.normalize_title
  split
  · exact normForm_nil
  · refine nf_core ?_
    intro c hc
    exact mem_toLowerStr_not_upper
      (subAlts_subset (subAlts_subset (subAlts_subset
        (subAlts_subset (subYear_subset hc)))))

theorem normForm_toLowerStr {t : List Char} (h : normForm t) : toLowerStr t = t :=
  toLowerStr_eq_self fun c hc => good_not_upper (h.1 c hc)

theorem normForm_punctSub {t : List Char} (h : normForm t) : punctSub t = t :=
  punctSub_eq_self h.1

theorem normForm_collapseWs {t : List Char} (h : normForm t) : collapseWs t = t :=
  collapseWs_eq_self h.1 h.2.1

theorem normForm_stripWs {t : List Char} (h : normForm t) : stripWs t = t :=
  stripWs_eq_self h.2.2.1 h.2.2.2

theorem TS_stripWs_normalize (c : List Char) :
    stripWs (TS.normalize_title c) = TS.normalize_title c :=
  normForm_stripWs (TS_normalize_normForm c)

theorem PS_stripWs_normalize (c : List Char) :
    stripWs (PS.normalize_title c) = PS.normalize_title c :=
  normForm_stripWs (PS_normalize_normForm c)

/-! ### Enumeration, argmax and candidate-filter lemmas -/

theorem mem_enumFrom {α : Type} :
    ∀ {l : List α} {i : Nat} {p : Nat × α}, p ∈ enumFrom i l →
      i ≤ p.1 ∧ p.1 - i < l.length ∧ l.get? (p.1 - i) = some p.2 := by
  intro l
  induction l with
  | nil => intro i p h; cases h
  | cons a as ih =>
    intro i p h
    rcases List.mem_cons.1 h with h | h
    · subst h
      simp
    · obtain ⟨h1, h2, h3⟩ := ih h
      refine ⟨by omega, by simp only [List.length_cons]; omega, ?_⟩
      have he : p.1 - i = (p.1 - (i + 1)) + 1 := by omega
      rw [he]
      simpa using h3

theorem argmaxGo_spec :
    ∀ (xs : List ℚ) (bv : ℚ) (bi i : Nat),
      bv ≤ (argmaxGo xs bv bi i).2 ∧
      (∀ x ∈ xs, x ≤ (argmaxGo xs bv bi i).2) ∧
      (((argmaxGo xs bv bi i).1 = bi ∧ (argmaxGo xs bv bi i).2 = bv) ∨
        ∃ k, xs.get? k = some (argmaxGo xs bv bi i).2 ∧
          (argmaxGo xs bv bi i).1 = i + k) := by
  intro xs
  induction xs with
  | nil =>
    intro bv bi i
    refine ⟨le_refl _, ?_, Or.inl ⟨rfl, rfl⟩⟩
    intro x h
    cases h
  | cons x xs ih =>
    intro bv bi i
    rw [argmaxGo]
    split
    · next hlt =>
      obtain ⟨h1, h2, h3⟩ := ih x i (i + 1)
      refine ⟨le_trans (le_of_lt hlt) h1, ?_, ?_⟩
      · intro y hy
        rcases List.mem_cons.1 hy with hy | hy
        · exact hy ▸ h1
        · exact h2 y hy
      · rcases h3 with ⟨ha, hb⟩ | ⟨k, hk1, hk2⟩
        · refine Or.inr ⟨0, ?_, by rw [ha]; omega⟩
          rw [hb]
          rfl
        · refine Or.inr ⟨k + 1, by simpa using hk1, by rw [hk2]; omega⟩
    · next hlt =>
      obtain ⟨h1, h2, h3⟩ := ih bv bi (i + 1)
      refine ⟨h1, ?_, ?_⟩
      · intro y hy
        rcases List.mem_cons.1 hy with hy | hy
        · subst hy
          exact le_trans (not_lt.1 hlt) h1
        · exact h2 y hy
      · rcases h3 with h | ⟨k, hk1, hk2⟩
        · exact Or.inl h
        · exact Or.inr ⟨k + 1, by simpa using hk1, by rw [hk2]; omega⟩

theorem argmax?_spec {l : List ℚ} {bi : Nat} {bv : ℚ}
    (h : argmax? l = some (bi, bv)) :
    l.get? bi = some bv ∧ ∀ x ∈ l, x ≤ bv := by
  match l with
  | [] => cases h
  | x :: xs =>
    rw [argmax?] at h
    simp only [Option.some.injEq] at h
    obtain ⟨h1, h2, h3⟩ := argmaxGo_spec xs x 0 1
    rw [h] at h1 h2 h3
    constructor
    · rcases h3 with ⟨ha, hb⟩ | ⟨k, hk1, hk2⟩
      · simp only at ha hb
        rw [ha, hb]
        rfl
      · simp only at hk1 hk2
        rw [hk2, Nat.add_comm 1 k]
        simpa using hk1
    · intro y hy
      rcases List.mem_cons.1 hy with hy | hy
      · subst hy
        simpa using h1
      · simpa using h2 y hy

theorem argmax?_isSome {l : List ℚ} (h : l ≠ []) : ∃ p, argmax? l = some p := by
  match l with
  | [] => exact absurd rfl h
  | x :: xs => exact ⟨argmaxGo xs x 0 1, rfl⟩

theorem validGen_mem {f : List Char → List Char} {cs : List (List Char)}
    {p : Nat × List Char} (h : p ∈ validGen f cs) :
    p.1 < cs.length ∧ ∃ c, cs.get? p.1 = some c ∧ p.2 = f c ∧ stripWs (f c) ≠ [] := by
  unfold validGen at h
  obtain ⟨hm, hp⟩ := List.mem_filter.1 h
  obtain ⟨h2, h3, h4⟩ := mem_enumFrom hm
  simp only [Nat.sub_zero] at h3 h4
  rw [List.length_map] at h3
  rw [List.get?_map] at h4
  match hc : cs.get? p.1 with
  | none =>
    rw [hc] at h4
    cases h4
  | some c =>
    rw [hc] at h4
    simp only [Option.map_some', Option.some.injEq] at h4
    have hne : stripWs p.2 ≠ [] := by
      intro hnil
      rw [hnil] at hp
      simp at hp
    exact ⟨h3, c, rfl, h4.symm, h4 ▸ hne⟩

theorem validGen_eq_nil {f : List Char → List Char} {cs : List (List Char)}
    (h : ∀ c ∈ cs, stripWs (f c) = []) : validGen f cs = [] := by
  unfold validGen
  rw [List.filter_eq_nil_iff]
  intro p hp
  obtain ⟨-, -, h4⟩ := mem_enumFrom hp
  simp only [Nat.sub_zero, List.get?_map] at h4
  match hc : cs.get? p.1 with
  | none =>
    rw [hc] at h4
    cases h4
  | some c =>
    rw [hc] at h4
    simp only [Option.map_some', Option.some.injEq] at h4
    have hce := h c (List.get?_mem hc)
    rw [← h4, hce]
    simp

/-! ### The simple (Jaccard) strategy loop -/

theorem candScore_nonneg (sw : Finset (List Char)) (c : List Char) :
    0 ≤ PS.candScore sw c := by
  unfold PS.candScore
  dsimp only
  split
  · split
    · positivity
    · exact le_refl 0
  · exact le_refl 0

theorem simpleGo_snd (sw : Finset (List Char)) :
    ∀ (rest : List (List Char)) (i : Nat) (bi : Option Nat) (bs : ℚ), 0 ≤ bs →
      (PS.simpleGo sw rest i bi bs).2 =
        rest.foldl (fun a c => max a (PS.candScore sw c)) bs := by
  intro rest
  induction rest with
  | nil => intro i bi bs _; rfl
  | cons cand rest ih =>
    intro i bi bs hbs
    rw [PS.simpleGo]
    dsimp only
    rw [List.foldl_cons]
    by_cases he : sw.Nonempty ∧ (PS.words cand).Nonempty
    · rw [if_pos he]
      have hsc : PS.candScore sw cand =
          if 0 < (sw ∪ PS.words cand).card then
            (((sw ∩ PS.words cand).card : ℚ) / ((sw ∪ PS.words cand).card : ℚ))
          else 0 := by
        unfold PS.candScore
        rw [if_pos he]
      have hs0 : 0 ≤ PS.candScore sw cand := candScore_nonneg sw cand
      by_cases hlt : bs < (if 0 < (sw ∪ PS.words cand).card then
          (((sw ∩ PS.words cand).card : ℚ) / ((sw ∪ PS.words cand).card : ℚ))
          else 0)
      · rw [if_pos hlt, ih _ _ _ (le_trans hbs (le_of_lt hlt))]
        congr 1
        rw [max_eq_right (le_of_lt (hsc ▸ hlt))]
        exact hsc.symm
      · rw [if_neg hlt, ih _ _ _ hbs]
        congr 1
        rw [max_eq_left]
        rw [hsc]
        exact not_lt.1 hlt
    · rw [if_neg he]
      have hsc : PS.candScore sw cand = 0 := by
        unfold PS.candScore
        rw [if_neg he]
      rw [ih _ _ _ hbs]
      congr 1
      rw [hsc, max_eq_left hbs]

theorem simpleGo_fst_lt (sw : Finset (List Char)) :
    ∀ (rest : List (List Char)) (i : Nat) (bi : Option Nat) (bs : ℚ) (j : Nat),
      (∀ k, bi = some k → k < i) →
      (PS.simpleGo sw rest i bi bs).1 = some j → j < i + rest.length := by
  intro rest
  induction rest with
  | nil =>
    intro i bi bs j hinv h
    simpa using hinv j h
  | cons cand rest ih =>
    intro i bi bs j hinv h
    rw [PS.simpleGo] at h
    dsimp only at h
    have hlen : i + (cand :: rest).length = (i + 1) + rest.length := by
      simp only [List.length_cons]
      omega
    rw [hlen]
    split at h <;> try split at h
    all_goals try split at h
    all_goals
      first
      | (refine ih (i + 1) (some i) _ j ?_ h
         intro k hk
         cases hk
         omega)
      | (refine ih (i + 1) bi _ j ?_ h
         intro k hk
         exact lt_trans (hinv k hk) (by omega))

theorem simpleGo_fst_mem (sw : Finset (List Char)) :
    ∀ (rest : List (List Char)) (i : Nat) (bi : Option Nat) (bs : ℚ) (j : Nat),
      (PS.simpleGo sw rest i bi bs).1 = some j →
      bi = some j ∨
        ∃ k c, rest.get? k = some c ∧ j = i + k ∧ (PS.words c).Nonempty := by
  intro rest
  induction rest with
  | nil =>
    intro i bi bs j h
    exact Or.inl h
  | cons cand rest ih =>
    intro i bi bs j h
    rw [PS.simpleGo] at h
    dsimp only at h
    have step :
        ∀ bi2 bs2, (PS.simpleGo sw rest (i + 1) bi2 bs2).1 = some j →
          (bi2 = some j ∨
            ∃ k c, (cand :: rest).get? k = some c ∧ j = i + k ∧
              (PS.words c).Nonempty) := by
      intro bi2 bs2 h2
      rcases ih _ _ _ _ h2 with hb | ⟨k, c, hk1, hk2, hk3⟩
      · exact Or.inl hb
      · exact Or.inr ⟨k + 1, c, by simpa using hk1, by omega, hk3⟩
    split at h
    · next he =>
      split at h <;> split at h
      all_goals
        first
        | (rcases step _ _ h with hb | hm
           · cases hb
             exact Or.inr ⟨0, cand, rfl, by omega, he.2⟩
           · exact Or.inr hm)
        | (rcases step _ _ h with hb | hm
           · exact Or.inl hb
           · exact Or.inr hm)
    · rcases step _ _ h with hb | hm
      · exact Or.inl hb
      · exact Or.inr hm

/-! ### Further auxiliary lemmas for the claim theorems -/

theorem enumFrom_get? {α : Type} :
    ∀ {l : List α} {k : Nat} {a : α} (i : Nat), l.get? k = some a →
      (i + k, a) ∈ enumFrom i l := by
  intro l
  induction l with
  | nil => intro k a i h; cases h
  | cons x xs ih =>
    intro k a i h
    match k with
    | 0 =>
      simp only [List.get?_cons_zero, Option.some.injEq] at h
      subst h
      exact List.mem_cons_self _ _
    | k + 1 =>
      simp only [List.get?_cons_succ] at h
      have := ih (i + 1) h
      have he : i + (k + 1) = (i + 1) + k := by omega
      rw [he]
      exact List.mem_cons_of_mem _ this

theorem validGen_ne_nil {f : List Char → List Char} {cs : List (List Char)}
    {k : Nat} {c : List Char} (hk : cs.get? k = some c)
    (hne : stripWs (f c) ≠ []) : validGen f cs ≠ [] := by
  intro hnil
  have hm : (0 + k, f c) ∈ enumFrom 0 (cs.map f) :=
    enumFrom_get? 0 (by rw [List.get?_map, hk]; rfl)
  have hmem : (0 + k, f c) ∈ validGen f cs := by
    unfold validGen
    refine List.mem_filter.2 ⟨hm, ?_⟩
    rw [Bool.not_eq_true']
    exact List.isEmpty_eq_false.2 hne
  rw [hnil] at hmem
  cases hmem

theorem space_not_upper {c : Char} (h : isSpaceChar c = true) : isUpperA c = false := by
  simp only [isSpaceChar, decide_eq_true_eq] at h
  simp only [isUpperA, decide_eq_false_iff_not]
  omega

theorem words_nonempty_strip {c : List Char} (h : (PS.words c).Nonempty) :
    stripWs (PS.normalize_title c) ≠ [] := by
  intro hnil
  have hall : ∀ d ∈ PS.normalize_title c, isSpaceChar d = true := by
    rw [← stripWs_eq_nil_iff]
    exact hnil
  have hlow : toLowerStr (PS.normalize_title c) = PS.normalize_title c :=
    toLowerStr_eq_self fun d hd => space_not_upper (hall d hd)
  have hsplit : splitWs (toLowerStr (PS.normalize_title c)) = [] := by
    rw [hlow]
    exact splitWs_eq_nil_iff.2 hall
  unfold PS.words at h
  rw [hsplit] at h
  exact absurd rfl (Finset.nonempty_iff_ne_empty.1 h)

theorem simpleGo_all_empty (sw : Finset (List Char)) :
    ∀ (rest : List (List Char)), (∀ c ∈ rest, PS.words c = ∅) →
      ∀ (i : Nat) (bi : Option Nat) (bs : ℚ),
        PS.simpleGo sw rest i bi bs = (bi, bs) := by
  intro rest
  induction rest with
  | nil => intro _ i bi bs; rfl
  | cons cand rest ih =>
    intro h i bi bs
    rw [PS.simpleGo]
    dsimp only
    rw [if_neg]
    · exact ih (fun c hc => h c (List.mem_cons_of_mem cand hc)) _ _ _
    · rintro ⟨-, hne⟩
      rw [h cand (List.mem_cons_self cand rest)] at hne
      exact absurd rfl (Finset.nonempty_iff_ne_empty.1 hne)

theorem simple_all_empty {s : List Char} {cs : List (List Char)}
    (h : ∀ c ∈ cs, stripWs (PS.normalize_title c) = []) :
    PS.find_best_match_simple s cs = (none, 0) := by
  have hw : ∀ c ∈ cs, PS.words c = ∅ := by
    intro c hc
    by_contra hne
    exact absurd (h c hc)
      (words_nonempty_strip (Finset.nonempty_iff_ne_empty.2 hne))
  unfold PS.find_best_match_simple
  rw [simpleGo_all_empty _ cs hw 0 none 0]
  rw [if_neg (by norm_num : ¬((3:ℚ)/10 ≤ 0))]

/-! ### Inversion principles for accepted matches -/

theorem TS_some_inv {oracle : Oracle} {th : ℚ} {s : List Char}
    {cs : List (List Char)} {i : Nat} {r : ℚ}
    (h : TS.find_best_match oracle th s cs = (some i, r)) :
    th ≤ r ∧ i < cs.length ∧
      ∃ c, cs.get? i = some c ∧ stripWs (TS.normalize_title c) ≠ [] := by
  unfold TS.find_best_match at h
  split at h
  · simp at h
  · split at h
    · simp at h
    · split at h
      · simp at h
      · split at h
        · simp at h
        · split at h
          · simp at h
          · next p hp =>
            split at h
            · next hth =>
              simp only [Prod.mk.injEq, Option.some.injEq] at h
              obtain ⟨h1, h2⟩ := h
              subst h1
              subst h2
              obtain ⟨hlt, c, hc1, hc2, hc3⟩ := validGen_mem (List.get?_mem hp)
              exact ⟨hth, hlt, c, hc1, hc3⟩
            · simp at h

theorem PS_simple_some_inv {s : List Char} {cs : List (List Char)} {i : Nat} {r : ℚ}
    (h : PS.find_best_match_simple s cs = (some i, r)) :
    (3 : ℚ) / 10 ≤ r ∧ i < cs.length ∧
      ∃ c, cs.get? i = some c ∧ stripWs (PS.normalize_title c) ≠ [] := by
  unfold PS.find_best_match_simple at h
  dsimp only at h
  split at h
  · next hth =>
    have h1 : (PS.simpleGo (PS.words s) cs 0 none 0).1 = some i := by rw [h]
    have h2 : (PS.simpleGo (PS.words s) cs 0 none 0).2 = r := by rw [h]
    refine ⟨h2 ▸ hth, ?_, ?_⟩
    · have hl := simpleGo_fst_lt (PS.words s) cs 0 none 0 i
        (by intro k hk; cases hk) h1
      simpa using hl
    · rcases simpleGo_fst_mem (PS.words s) cs 0 none 0 i h1 with hb | ⟨k, c, hk1, hk2, hk3⟩
      · cases hb
      · have hik : i = k := by omega
        subst hik
        exact ⟨c, hk1, words_nonempty_strip hk3⟩
  · simp at h

theorem PS_tfidf_some_inv {oracle : Oracle} {th : ℚ} {s : List Char}
    {cs : List (List Char)} {i : Nat} {r : ℚ}
    (h : PS.find_best_match_tfidf oracle th s cs = (some i, r)) :
    (th ≤ r ∨ (3 : ℚ) / 10 ≤ r) ∧ i < cs.length ∧
      ∃ c, cs.get? i = some c ∧ stripWs (PS.normalize_title c) ≠ [] := by
  unfold PS.find_best_match_tfidf at h
  split at h
  · simp at h
  · split at h
    · obtain ⟨ha, hb, hc⟩ := PS_simple_some_inv h
      exact ⟨Or.inr ha, hb, hc⟩
    · split at h
      · obtain ⟨ha, hb, hc⟩ := PS_simple_some_inv h
        exact ⟨Or.inr ha, hb, hc⟩
      · split at h
        · obtain ⟨ha, hb, hc⟩ := PS_simple_some_inv h
          exact ⟨Or.inr ha, hb, hc⟩
        · next p hp =>
          split at h
          · next hth =>
            simp only [Prod.mk.injEq, Option.some.injEq] at h
            obtain ⟨h1, h2⟩ := h
            subst h1
            subst h2
            obtain ⟨hlt, c, hc1, hc2, hc3⟩ := validGen_mem (List.get?_mem hp)
            exact ⟨Or.inl hth, hlt, c, hc1, hc3⟩
          · simp at h

theorem PS_find_some_inv {enabled : Bool} {oracle : Oracle} {th : ℚ} {s : List Char}
    {cs : List (List Char)} {i : Nat} {r : ℚ}
    (h : PS.find_best_match enabled oracle th s cs = (some i, r)) :
    (th ≤ r ∨ (3 : ℚ) / 10 ≤ r) ∧ i < cs.length ∧
      ∃ c, cs.get? i = some c ∧ stripWs (PS.normalize_title c) ≠ [] := by
  unfold PS.find_best_match at h
  split at h
  · simp at h
  · split at h
    · exact PS_tfidf_some_inv h
    · obtain ⟨ha, hb, hc⟩ := PS_simple_some_inv h
      exact ⟨Or.inr ha, hb, hc⟩

/-! ### Behaviour when every candidate normalizes to the empty string -/

theorem TS_all_empty {oracle : Oracle} {th : ℚ} {s : List Char}
    {cs : List (List Char)}
    (h : ∀ c ∈ cs, stripWs (TS.normalize_title c) = []) :
    TS.find_best_match oracle th s cs = (none, 0) := by
  unfold TS.find_best_match
  split
  · rfl
  · rw [if_pos]
    show (TS.valid cs).isEmpty = true
    unfold TS.valid
    rw [validGen_eq_nil h]
    rfl

theorem PS_all_empty {enabled : Bool} {oracle : Oracle} {th : ℚ} {s : List Char}
    {cs : List (List Char)}
    (h : ∀ c ∈ cs, stripWs (PS.normalize_title c) = []) :
    PS.find_best_match enabled oracle th s cs = (none, 0) := by
  unfold PS.find_best_match
  split
  · rfl
  · split
    · unfold PS.find_best_match_tfidf
      rw [if_pos]
      show (PS.valid cs).isEmpty = true
      unfold PS.valid
      rw [validGen_eq_nil h]
      rfl
    · exact simple_all_empty h

/-! ### Concrete-evaluation helpers -/

theorem eval_simple_single (s c : List Char) (i u : Nat)
    (hs : (PS.words s).Nonempty) (hc : (PS.words c).Nonempty)
    (hi : (PS.words s ∩ PS.words c).card = i)
    (hu : (PS.words s ∪ PS.words c).card = u) (hupos : 0 < u)
    (hscore : (0 : ℚ) < (i : ℚ) / (u : ℚ)) :
    PS.simpleGo (PS.words s) [c] 0 none 0 = (some 0, (i : ℚ) / (u : ℚ)) := by
  rw [PS.simpleGo]
  dsimp only
  rw [if_pos ⟨hs, hc⟩, hi, hu, if_pos hupos, if_pos hscore, PS.simpleGo]

theorem eval_simple_fifa_id :
    PS.find_best_match_simple "fifa".toList ["fifa".toList] = (some 0, 1) := by
  unfold PS.find_best_match_simple
  rw [eval_simple_single "fifa".toList "fifa".toList 1 1 (by decide) (by decide)
    (by decide) (by decide) (by norm_num) (by norm_num)]
  norm_num

theorem eval_simple_fifa23 :
    PS.find_best_match_simple "FIFA 23".toList ["FIFA 24".toList] =
      (some 0, 1 / 3) := by
  unfold PS.find_best_match_simple
  rw [eval_simple_single "FIFA 23".toList "FIFA 24".toList 1 3 (by decide) (by decide)
    (by decide) (by decide) (by norm_num) (by norm_num)]
  norm_num

theorem eval_simple_alpha :
    PS.find_best_match_simple "alpha beta".toList ["alpha gamma".toList] =
      (some 0, 1 / 3) := by
  unfold PS.find_best_match_simple
  rw [eval_simple_single "alpha beta".toList "alpha gamma".toList 1 3 (by decide)
    (by decide) (by decide) (by decide) (by norm_num) (by norm_num)]
  norm_num

theorem find_false_eq_simple (oracle : Oracle) (th : ℚ) (s : List Char)
    (cs : List (List Char)) (hs : s.isEmpty = false) (hcs : cs.isEmpty = false) :
    PS.find_best_match false oracle th s cs = PS.find_best_match_simple s cs := by
  unfold PS.find_best_match
  rw [hs, hcs]
  simp

/-! ### Claim theorems -/

/-- Claim C1, counterexample: normalization is not idempotent.  On
"game of the deluxe year" the first pass removes only "deluxe", and the
collapsed result "game of the year" is itself a removable vocabulary
phrase, so a second pass yields the empty string. -/
theorem normalize_not_idempotent :
    TS.normalize_title (TS.normalize_title "game of the deluxe year".toList) ≠
      TS.normalize_title "game of the deluxe year".toList := by
  decide

/-- Claim C1, amended: normalization is idempotent on every title whose
normalized form is fixed by each of the six removal passes; the lower-case,
punctuation, whitespace-collapse and strip stages always fix a normalized
title (proved via `TS_normalize_normForm`), so a second application can
only differ by removing vocabulary matches assembled by the first. -/
theorem normalize_idempotent_of_no_new_matches (s : List Char)
    (h1 : subAlts TS.vocab1 (TS.normalize_title s) = TS.normalize_title s)
    (h2 : subAlts TS.vocab2 (TS.normalize_title s) = TS.normalize_title s)
    (h3 : subAlts TS.vocab3 (TS.normalize_title s) = TS.normalize_title s)
    (h4 : subVersion (TS.normalize_title s) = TS.normalize_title s)
    (h5 : subAlts TS.platforms (TS.normalize_title s) = TS.normalize_title s)
    (h6 : subYear (TS.normalize_title s) = TS.normalize_title s) :
    TS.normalize_title (TS.normalize_title s) = TS.normalize_title s := by
  have hnf := TS_normalize_normForm s
  generalize hT : TS.normalize_title s = t at *
  unfold TS.normalize_title
  split
  · next he => exact (List.isEmpty_eq_true.1 he).symm
  · rw [normForm_toLowerStr hnf, h1, h2, h3, h4, h5, h6, normForm_punctSub hnf,
      normForm_collapseWs hnf, normForm_stripWs hnf]

/-- Witness for the amended claim C1 at the already-stable title
"cyberpunk 2077". -/
theorem normalize_idempotent_witness :
    TS.normalize_title (TS.normalize_title "cyberpunk 2077".toList) =
      TS.normalize_title "cyberpunk 2077".toList :=
  normalize_idempotent_of_no_new_matches "cyberpunk 2077".toList (by decide)
    (by decide) (by decide) (by decide) (by decide) (by decide)

/-- Claim C2, counterexample: in `text_similarity.py` a failing TF-IDF
computation makes `find_best_match` return `(None, 0.0)` — it does NOT
fall back to token-overlap scoring, which on the same input would accept
candidate 0 with Jaccard score 1. -/
theorem ts_error_no_fallback :
    TS.find_best_match errOracle (3 / 5) "fifa".toList ["fifa".toList] = (none, 0) ∧
    PS.find_best_match_simple "fifa".toList ["fifa".toList] = (some 0, 1) ∧
    ((none, (0 : ℚ)) : Option Nat × ℚ) ≠ (some 0, 1) := by
  refine ⟨rfl, eval_simple_fifa_id, ?_⟩
  simp

/-- Claim C2, amended: only the price-scraper copy has the documented
failure semantics — when the TF-IDF oracle raises, its `find_best_match`
(vector mode enabled) returns exactly the token-overlap result for that
call; nothing is mutated, so vector mode stays enabled for later calls. -/
theorem ps_error_falls_back (oracle : Oracle) (th : ℚ) (s : List Char)
    (cs : List (List Char)) (hs : s.isEmpty = false) (hcs : cs.isEmpty = false)
    (herr : oracle (PS.allTexts s cs) = .error ()) :
    PS.find_best_match true oracle th s cs = PS.find_best_match_simple s cs := by
  unfold PS.find_best_match
  rw [hs, hcs]
  simp only [Bool.or_self, Bool.false_eq_true, if_false, if_true]
  unfold PS.find_best_match_tfidf
  by_cases hv : (PS.valid cs).isEmpty
  · rw [if_pos hv]
    symm
    apply simple_all_empty
    intro c hc
    by_contra hne
    obtain ⟨k, hk⟩ := List.get_of_mem hc
    have := validGen_ne_nil (List.get?_eq_get k.2 ▸ (congrArg some hk)) hne
    exact this (by unfold PS.valid at hv; exact List.isEmpty_eq_true.1 hv)
  · rw [if_neg hv, herr]

/-- Witness for the amended claim C2: a failing oracle on a concrete call. -/
theorem ps_error_falls_back_witness :
    PS.find_best_match true errOracle (3 / 5) "fifa".toList ["fifa".toList] =
      PS.find_best_match_simple "fifa".toList ["fifa".toList] :=
  ps_error_falls_back errOracle (3 / 5) "fifa".toList ["fifa".toList] rfl rfl rfl

/-- Claim C3, counterexample: with the default threshold 0.6 the
token-overlap fallback accepts index 0 at Jaccard score 1/3 (it compares
against its own hard-coded 0.3, not against `similarity_threshold`), so a
returned index does not imply score ≥ configured threshold. -/
theorem fallback_ignores_threshold :
    PS.find_best_match false errOracle (3 / 5) "alpha beta".toList
      ["alpha gamma".toList] = (some 0, 1 / 3) ∧ (1 : ℚ) / 3 < 3 / 5 := by
  constructor
  · rw [find_false_eq_simple errOracle (3 / 5) _ _ (by decide) (by decide)]
    exact eval_simple_alpha
  · norm_num

/-- Claim C3, amended: an accepted index implies score ≥ the configured
threshold in the vector strategy (both copies), while the token-overlap
fallback guarantees only its own hard-coded bound 0.3; the dispatching
matcher therefore guarantees the minimum of the two. -/
theorem accepted_score_bounds :
    (∀ (oracle : Oracle) (th : ℚ) (s : List Char) (cs : List (List Char))
        (i : Nat) (r : ℚ),
      TS.find_best_match oracle th s cs = (some i, r) → th ≤ r) ∧
    (∀ (s : List Char) (cs : List (List Char)) (i : Nat) (r : ℚ),
      PS.find_best_match_simple s cs = (some i, r) → (3 : ℚ) / 10 ≤ r) ∧
    (∀ (enabled : Bool) (oracle : Oracle) (th : ℚ) (s : List Char)
        (cs : List (List Char)) (i : Nat) (r : ℚ),
      PS.find_best_match enabled oracle th s cs = (some i, r) →
        min th ((3 : ℚ) / 10) ≤ r) := by
  refine ⟨?_, ?_, ?_⟩
  · intro oracle th s cs i r h
    exact (TS_some_inv h).1
  · intro s cs i r h
    exact (PS_simple_some_inv h).1
  · intro enabled oracle th s cs i r h
    rcases (PS_find_some_inv h).1 with hr | hr
    · exact le_trans (min_le_left _ _) hr
    · exact le_trans (min_le_right _ _) hr

/-- Witness for the amended claim C3 at a concrete accepted match. -/
theorem accepted_score_bounds_witness : (3 : ℚ) / 10 ≤ 1 :=
  accepted_score_bounds.2.1 "fifa".toList ["fifa".toList] 0 1 eval_simple_fifa_id

/-- Claim C4, counterexample: underscores survive normalization (Python
`\w` keeps them), so the output is not restricted to lower-case letters,
digits and spaces.  Totality itself holds (the model is a total function);
only the claimed output alphabet is wrong. -/
theorem normalize_keeps_underscore :
    TS.normalize_title "a_b".toList = "a_b".toList ∧
    '_' ∈ TS.normalize_title "a_b".toList ∧
    isLowerA '_' = false ∧ isDigitA '_' = false ∧ '_' ≠ ' ' := by
  decide

/-- Claim C4, amended: `normalize_title` is total (a total Lean function)
and every output is made of lower-case letters, digits, underscores and
spaces, with no two adjacent whitespace characters and no leading or
trailing whitespace. -/
theorem normalize_output_shape (s : List Char) :
    (∀ c ∈ TS.normalize_title s, goodChar c = true) ∧
    noTwoSpaces (TS.normalize_title s) ∧
    (∀ c, (TS.normalize_title s).head? = some c → isSpaceChar c = false) ∧
    (∀ c, (TS.normalize_title s).getLast? = some c → isSpaceChar c = false) :=
  TS_normalize_normForm s

/-- Claim C5, counterexample: under the token-overlap fallback,
`find_best_match("FIFA 23", ["FIFA 24"])` does NOT reject: the single
shared token "fifa" gives Jaccard 1/3 ≥ 0.3, so index 0 is selected. -/
theorem fifa_fallback_accepts :
    PS.find_best_match_simple "FIFA 23".toList ["FIFA 24".toList] =
      (some 0, 1 / 3) ∧ (some 0 : Option Nat) ≠ none := by
  refine ⟨eval_simple_fifa23, ?_⟩
  simp

/-- Claim C5, amended: in the token-overlap strategy the call accepts
index 0 with score 1/3 (which is ≥ the fallback's own 0.3 threshold even
though it is below the configured 0.6), so rejection in both strategies
does not hold. -/
theorem fifa_fallback_accepts_amended :
    PS.find_best_match false errOracle (3 / 5) "FIFA 23".toList
      ["FIFA 24".toList] = (some 0, 1 / 3) ∧
    (3 : ℚ) / 10 ≤ 1 / 3 ∧ (1 : ℚ) / 3 < 3 / 5 := by
  refine ⟨?_, by norm_num, by norm_num⟩
  rw [find_false_eq_simple errOracle (3 / 5) _ _ (by decide) (by decide)]
  exact eval_simple_fifa23

/-- Claim C6: index fidelity — whenever either matcher returns a non-none
index, it is a valid 0-based position in the caller's original candidate
list (both copies remap through the original `enumerate` index). -/
theorem index_fidelity :
    (∀ (oracle : Oracle) (th : ℚ) (s : List Char) (cs : List (List Char))
        (i : Nat) (r : ℚ),
      TS.find_best_match oracle th s cs = (some i, r) → i < cs.length) ∧
    (∀ (enabled : Bool) (oracle : Oracle) (th : ℚ) (s : List Char)
        (cs : List (List Char)) (i : Nat) (r : ℚ),
      PS.find_best_match enabled oracle th s cs = (some i, r) → i < cs.length) := by
  constructor
  · intro oracle th s cs i r h
    exact (TS_some_inv h).2.1
  · intro enabled oracle th s cs i r h
    exact (PS_find_some_inv h).2.1

/-- Witness for claim C6 at a concrete accepted match. -/
theorem index_fidelity_witness :
    (0 : Nat) < ([ "fifa".toList ] : List (List Char)).length :=
  index_fidelity.2 false errOracle (3 / 5) "fifa".toList ["fifa".toList] 0 1
    (by rw [find_false_eq_simple errOracle (3 / 5) _ _ (by decide) (by decide)]
        exact eval_simple_fifa_id)

/-- Claim C7: a candidate whose normalized form is empty is never the
selected one, never causes an error (the model functions are total), and
if every candidate normalizes to the empty string both matchers return
`(none, 0.0)` without consulting the scoring oracle. -/
theorem empty_candidates_excluded :
    (∀ (oracle : Oracle) (th : ℚ) (s : List Char) (cs : List (List Char))
        (i : Nat) (r : ℚ),
      TS.find_best_match oracle th s cs = (some i, r) →
        ∃ c, cs.get? i = some c ∧ stripWs (TS.normalize_title c) ≠ []) ∧
    (∀ (oracle : Oracle) (th : ℚ) (s : List Char) (cs : List (List Char)),
      (∀ c ∈ cs, stripWs (TS.normalize_title c) = []) →
        TS.find_best_match oracle th s cs = (none, 0)) ∧
    (∀ (enabled : Bool) (oracle : Oracle) (th : ℚ) (s : List Char)
        (cs : List (List Char)) (i : Nat) (r : ℚ),
      PS.find_best_match enabled oracle th s cs = (some i, r) →
        ∃ c, cs.get? i = some c ∧ stripWs (PS.normalize_title c) ≠ []) ∧
    (∀ (enabled : Bool) (oracle : Oracle) (th : ℚ) (s : List Char)
        (cs : List (List Char)),
      (∀ c ∈ cs, stripWs (PS.normalize_title c) = []) →
        PS.find_best_match enabled oracle th s cs = (none, 0)) := by
  refine ⟨?_, ?_, ?_, ?_⟩
  · intro oracle th s cs i r h
    exact (TS_some_inv h).2.2
  · intro oracle th s cs h
    exact TS_all_empty h
  · intro enabled oracle th s cs i r h
    exact (PS_find_some_inv h).2.2
  · intro enabled oracle th s cs h
    exact PS_all_empty h

/-- Witness for claim C7: a punctuation-only candidate normalizes to the
empty string, and the lone-candidate call returns `(none, 0.0)`. -/
theorem empty_candidates_excluded_witness :
    TS.find_best_match errOracle (3 / 5) "elden ring".toList ["!!".toList] =
      (none, 0) :=
  empty_candidates_excluded.2.1 errOracle (3 / 5) "elden ring".toList
    ["!!".toList] (by decide)

/-- Claim C8: on rejection the caller receives the true best score.  In
the vector strategy (whenever the oracle yields one score per surviving
candidate, as scikit-learn does, and all scores are below the threshold)
the matcher returns `none` together with a member of the score list that
dominates every score; in the token-overlap strategy a best score below
0.3 is returned unchanged alongside `none`. -/
theorem rejection_returns_true_best :
    (∀ (oracle : Oracle) (th : ℚ) (s : List Char) (cs : List (List Char))
        (sims : List ℚ),
      s.isEmpty = false → cs.isEmpty = false → (TS.valid cs).isEmpty = false →
      oracle (TS.allTexts s cs) = .ok sims →
      sims.length = (TS.valid cs).length →
      (∀ x ∈ sims, x < th) →
      (TS.find_best_match oracle th s cs).1 = none ∧
      (TS.find_best_match oracle th s cs).2 ∈ sims ∧
      (∀ x ∈ sims, x ≤ (TS.find_best_match oracle th s cs).2)) ∧
    (∀ (s : List Char) (cs : List (List Char)),
      PS.bestSimpleScore s cs < 3 / 10 →
      PS.find_best_match_simple s cs = (none, PS.bestSimpleScore s cs)) := by
  constructor
  · intro oracle th s cs sims hs hcs hv hok hlen hub
    have hvne : TS.valid cs ≠ [] := List.isEmpty_eq_false.1 hv
    have hsne : sims ≠ [] := by
      intro hnil
      rw [hnil] at hlen
      exact hvne (List.eq_nil_of_length_eq_zero hlen.symm)
    obtain ⟨⟨bi, bv⟩, ham⟩ := argmax?_isSome hsne
    obtain ⟨hget, hmax⟩ := argmax?_spec ham
    have hbil : bi < sims.length := by
      by_contra hcn
      rw [List.get?_eq_none.2 (le_of_not_lt hcn)] at hget
      cases hget
    have hbiv : bi < (TS.valid cs).length := by
      rw [← hlen]
      exact hbil
    have hbv : bv ∈ sims := List.get?_mem hget
    have hfind : TS.find_best_match oracle th s cs = (none, bv) := by
      unfold TS.find_best_match
      rw [hs, hcs]
      rw [if_neg (by decide)]
      rw [if_neg (by rw [hv]; exact Bool.false_ne_true)]
      rw [hok]
      dsimp only
      rw [ham]
      dsimp only
      rw [List.get?_eq_get hbiv]
      dsimp only
      rw [if_neg (not_le.2 (hub bv hbv))]
    rw [hfind]
    exact ⟨rfl, hbv, fun x hx => hmax x hx⟩
  · intro s cs hlt
    unfold PS.find_best_match_simple
    dsimp only
    have hsnd : (PS.simpleGo (PS.words s) cs 0 none 0).2 = PS.bestSimpleScore s cs :=
      simpleGo_snd (PS.words s) cs 0 none 0 (le_refl 0)
    rw [hsnd]
    rw [if_neg (not_le.2 hlt)]

/-- Witness for claim C8, vector part: one surviving candidate scored
1/10 by the oracle, below the 3/5 threshold. -/
theorem rejection_returns_true_best_witness :
    (TS.find_best_match (constOracle [1 / 10]) (3 / 5) "fifa".toList
        ["fifa".toList]).1 = none ∧
    (TS.find_best_match (constOracle [1 / 10]) (3 / 5) "fifa".toList
        ["fifa".toList]).2 ∈ [(1 : ℚ) / 10] ∧
    (∀ x ∈ [(1 : ℚ) / 10],
      x ≤ (TS.find_best_match (constOracle [1 / 10]) (3 / 5) "fifa".toList
        ["fifa".toList]).2) :=
  rejection_returns_true_best.1 (constOracle [1 / 10]) (3 / 5) "fifa".toList
    ["fifa".toList] [1 / 10] (by decide) (by decide) (by decide) rfl (by decide)
    (by intro x hx
        rw [List.mem_singleton] at hx
        rw [hx]
        norm_num)

/-- Claim C9: an empty search title or an empty candidate list
short-circuits both matchers to `(none, 0.0)`; the result is independent
of the oracle and of the strategy flag, i.e. no scoring is attempted. -/
theorem degenerate_inputs :
    (∀ (oracle : Oracle) (th : ℚ) (cs : List (List Char)),
      TS.find_best_match oracle th [] cs = (none, 0)) ∧
    (∀ (oracle : Oracle) (th : ℚ) (s : List Char),
      TS.find_best_match oracle th s [] = (none, 0)) ∧
    (∀ (enabled : Bool) (oracle : Oracle) (th : ℚ) (cs : List (List Char)),
      PS.find_best_match enabled oracle th [] cs = (none, 0)) ∧
    (∀ (enabled : Bool) (oracle : Oracle) (th : ℚ) (s : List Char),
      PS.find_best_match enabled oracle th s [] = (none, 0)) := by
  refine ⟨?_, ?_, ?_, ?_⟩
  · intro oracle th cs
    unfold TS.find_best_match
    rw [if_pos (by simp)]
  · intro oracle th s
    unfold TS.find_best_match
    rw [if_pos (by simp)]
  · intro enabled oracle th cs
    unfold PS.find_best_match
    rw [if_pos (by simp)]
  · intro enabled oracle th s
    unfold PS.find_best_match
    rw [if_pos (by simp)]

/-- Claim C10: beyond the listed vocabularies, the `text_similarity`
normalizer also deletes decimal version-number tokens `v<digits>.<digits>`
(together with their dot), exactly as in its dedicated removal pass. -/
theorem version_number_removal :
    TS.normalize_title "Game v1.2".toList = "game".toList ∧
    TS.normalize_title "v1.0".toList = [] ∧
    TS.normalize_title "Game v12.34".toList = "game".toList := by
  decide
